import Mathlib

/-!
# Verification of the electrs indexing core

A shallow embedding of the two central modules of this repository:

* `src/util/block.rs` — the reorg-aware header chain index (`HeaderList`,
  `HeaderEntry`, `AddressInfo`);
* `src/multi.rs` — the multi-address resolver and the xpub gap-limit
  scanner (`xpub_multi_or_single`, `derive_batch`, `handle_xpub_inner`,
  `handle_multiaddr_inner`, and the three aggregation callbacks).

Machine integers are modelled as `Nat` (none of the verified paths rely on
wrap-around), block hashes as `Nat` with `0` playing the role of
`Sha256dHash::default()` (the null hash), and external collaborators
(script-hash conversion, the Query capability, key derivation, transaction
preparation) as function parameters, mirroring how the source borrows them.

The codebase has two distinct failure channels: `Result`-style typed errors
(e.g. `BlockMeta::parse_getblock` with `chain_err`) and process-aborting
`assert!`/`expect` panics (used throughout `HeaderList`).  The `Outcome`
type keeps the two apart so that statements about which channel a failure
uses are expressible.
-/

/-- Block hashes (`Sha256dHash`); `0` models `Sha256dHash::default()`. -/
abbrev Hash := Nat

/-- `BlockHeader`, reduced to the fields the verified code reads:
`prev_blockhash` and `time`. -/
structure Header where
  prev : Hash
  time : Nat
  deriving DecidableEq, Repr

/-- `HeaderEntry` from `src/util/block.rs`: height, hash, raw header. -/
structure HeaderEntry where
  height : Nat
  hash : Hash
  header : Header
  deriving DecidableEq, Repr

/-- Result of running a fallible/panicking code path.  `ok` is a normal
return, `typedError` a returned `Result::Err` (the codebase's `chain_err`
channel), `panicked` an `assert!`/`expect`/indexing panic that aborts the
process. -/
inductive Outcome (α : Type u) where
  | ok (a : α)
  | typedError
  | panicked

/-- Whether an outcome is a panic. -/
def Outcome.isPanicked : Outcome α → Bool
  | .panicked => true
  | _ => false

/-- Whether an outcome is a returned typed error. -/
def Outcome.isTypedError : Outcome α → Bool
  | .typedError => true
  | _ => false

/-- Whether an outcome is a normal return. -/
def Outcome.isOk : Outcome α → Bool
  | .ok _ => true
  | _ => false

/-- `HeaderList` from `src/util/block.rs`: the ordered header chain, the
`HashMap<Sha256dHash, usize>` of heights (modelled as a lookup function)
and the tip hash. -/
structure HeaderList where
  headers : List HeaderEntry
  heights : Hash → Option Nat
  tip : Hash

/-- `HeaderList::empty()`. -/
def HeaderList.empty : HeaderList :=
  { headers := [], heights := fun _ => none, tip := 0 }

/-- The contiguity/linkage assertions at the top of `HeaderList::apply`
(`for i in 1..new_headers.len()`): consecutive heights increase by one and
each entry's `prev_blockhash` equals the previous entry's hash. -/
def chainOk : List HeaderEntry → Bool
  | [] => true
  | [_] => true
  | a :: b :: rest =>
    (a.height + 1 == b.height) && (a.hash == b.header.prev) && chainOk (b :: rest)

/-- `self.headers.split_off(new_height)` — keep the `[0, new_height)`
prefix; the map and tip are not touched by the truncation itself. -/
def truncAt (l : HeaderList) (n : Nat) : HeaderList :=
  { l with headers := l.headers.take n }

/-- The `for new_header in new_headers` loop at the end of
`HeaderList::apply`: assert the entry's height equals the current length,
set the tip, push the entry, insert hash→height into the map. -/
def pushEntries : HeaderList → List HeaderEntry → Outcome HeaderList
  | l, [] => .ok l
  | l, e :: rest =>
    if e.height == l.headers.length then
      pushEntries
        { headers := l.headers ++ [e],
          heights := fun h => if h = e.hash then some e.height else l.heights h,
          tip := e.hash } rest
    else .panicked

/-- `HeaderList::apply`.  The `assert_eq!` validations are modelled as
checks whose failure produces `Outcome.panicked`; `self.headers[height-1]`
on an out-of-range height is the indexing panic. -/
def HeaderList.apply (l : HeaderList) (new_headers : List HeaderEntry) : Outcome HeaderList :=
  if chainOk new_headers then
    match new_headers with
    | [] => .ok l
    | e :: _ =>
      if e.height = 0 then
        if e.header.prev = 0 then pushEntries (truncAt l e.height) new_headers
        else .panicked
      else
        match l.headers.get? (e.height - 1) with
        | none => .panicked
        | some p =>
          if e.header.prev = p.hash then pushEntries (truncAt l e.height) new_headers
          else .panicked
  else .panicked

/-- `HeaderList::header_by_blockhash`: map lookup, vector lookup, then the
re-validation `*blockhash == *header.hash()` that guards against stale map
entries left behind by a truncating reorg. -/
def HeaderList.header_by_blockhash (l : HeaderList) (blockhash : Hash) : Option HeaderEntry :=
  match l.heights blockhash with
  | none => none
  | some height =>
    match l.headers.get? height with
    | none => none
    | some header => if blockhash = header.hash then some header else none

/-- `HashMap::remove(&blockhash)` on the headers map (modelled as an
association list): returns the removed header and the remaining map. -/
def lookupRemove : List (Hash × Header) → Hash → Option (Header × List (Hash × Header))
  | [], _ => none
  | (k, v) :: rest, h =>
    if k = h then some (v, rest)
    else (lookupRemove rest h).map (fun p => (p.1, (k, v) :: p.2))

theorem lookupRemove_length {m : List (Hash × Header)} {h : Hash}
    {hd : Header} {m' : List (Hash × Header)}
    (hlr : lookupRemove m h = some (hd, m')) : m'.length + 1 = m.length := by
  induction m generalizing m' with
  | nil => simp [lookupRemove] at hlr
  | cons kv rest ih =>
    by_cases hk : kv.1 = h
    · simp [lookupRemove, hk] at hlr
      simp [← hlr.2]
    · simp only [lookupRemove, hk, if_false, Option.map_eq_some'] at hlr
      obtain ⟨p, hp, hpe⟩ := hlr
      cases hpe
      have hrec : lookupRemove rest h = some (p.1, p.2) := by simpa using hp
      simp [← (ih hrec)]

/-- The `while blockhash != null_hash` walk in `HeaderList::new`: follow
`prev_blockhash` links backwards from the tip, removing each visited header
from the map; a missing hash is the `expect` panic.  Returns the chain
tip-first (the caller reverses it). -/
def walkBack (m : List (Hash × Header)) (h : Hash) : Outcome (List Header) :=
  if h = 0 then .ok []
  else
    match hlr : lookupRemove m h with
    | none => .panicked
    | some (hd, m') =>
      match walkBack m' hd.prev with
      | .ok rest => .ok (hd :: rest)
      | .typedError => .typedError
      | .panicked => .panicked
termination_by m.length
decreasing_by
  have := lookupRemove_length hlr
  omega

/-- The `for i in 1..hashed_headers.len()` assertion loop in
`HeaderList::order`: each header's `prev_blockhash` equals the computed
hash of the header before it. -/
def orderLinks (hashFn : Header → Hash) : List Header → Bool
  | [] => true
  | [_] => true
  | a :: b :: rest => (b.prev == hashFn a) && orderLinks hashFn (b :: rest)

/-- The `(new_height..).zip(...)` entry construction in `HeaderList::order`. -/
def mkEntries (hashFn : Header → Hash) (n : Nat) : List Header → List HeaderEntry
  | [] => []
  | hd :: rest => ⟨n, hashFn hd, hd⟩ :: mkEntries hashFn (n + 1) rest

/-- `HeaderList::order`, parametrised by the `bitcoin_hash` primitive
(external crypto).  The `expect("... is not part of the blockchain")` on an
unknown fork point is a panic. -/
def HeaderList.order (l : HeaderList) (hashFn : Header → Hash)
    (new_headers : List Header) : Outcome (List HeaderEntry) :=
  if orderLinks hashFn new_headers then
    match new_headers with
    | [] => .ok []
    | hd :: _ =>
      if hd.prev = 0 then .ok (mkEntries hashFn 0 new_headers)
      else
        match l.header_by_blockhash hd.prev with
        | some e => .ok (mkEntries hashFn (e.height + 1) new_headers)
        | none => .panicked
  else .panicked

/-- `HeaderList::new`: walk back from the tip (panicking on a missing
ancestor), reverse, then `order` + `apply` on the empty index. -/
def HeaderList.new (hashFn : Header → Hash) (headers_map : List (Hash × Header))
    (tip_hash : Hash) : Outcome HeaderList :=
  match walkBack headers_map tip_hash with
  | .ok chain =>
    match HeaderList.empty.order hashFn chain.reverse with
    | .ok entries => HeaderList.empty.apply entries
    | .typedError => .typedError
    | .panicked => .panicked
  | .typedError => .typedError
  | .panicked => .panicked

/-- Hash of the last entry, or the null hash when the list is empty
(matches the `tip` bookkeeping of `HeaderList`). -/
def lastHash (hs : List HeaderEntry) : Hash :=
  (hs.getLast?.map (fun e => e.hash)).getD 0

/-- Tip after pushing `es` on top of a state whose tip is `t`. -/
def lastTip (t : Hash) (es : List HeaderEntry) : Hash :=
  (es.getLast?.map (fun e => e.hash)).getD t

/-- The net effect of the insertion loop on the heights map. -/
def insertAll (m : Hash → Option Nat) (es : List HeaderEntry) : Hash → Option Nat :=
  es.foldl (fun m e => fun h => if h = e.hash then some e.height else m h) m

/-- Hash linkage between consecutive entries (`headers[i+1].header.prev ==
headers[i].hash`). -/
def linksOk : List HeaderEntry → Bool
  | [] => true
  | [_] => true
  | a :: b :: rest => (b.header.prev == a.hash) && linksOk (b :: rest)

/-- Sanity-checked well-formedness of a `HeaderList` (the amended
invariant of the spec's HeaderChainIndex):  heights match positions, the
first entry's `prev` is the null hash, consecutive entries are hash-linked,
the tip is the last entry's hash (null when empty), and every *present*
entry's hash maps to its height.  (Hashes of discarded entries may remain
in the map; `header_by_blockhash` filters them.) -/
def ChainInv (l : HeaderList) : Prop :=
  (∀ i : Fin l.headers.length, (l.headers.get i).height = i.val) ∧
  (∀ e ∈ l.headers.head?, e.header.prev = 0) ∧
  linksOk l.headers = true ∧
  l.tip = lastHash l.headers ∧
  (∀ i : Fin l.headers.length, l.heights (l.headers.get i).hash = some i.val)

instance (l : HeaderList) : Decidable (ChainInv l) :=
  inferInstanceAs (Decidable
    ((∀ i : Fin l.headers.length, (l.headers.get i).height = i.val) ∧
      (∀ e ∈ l.headers.head?, e.header.prev = 0) ∧
      linksOk l.headers = true ∧
      l.tip = lastHash l.headers ∧
      (∀ i : Fin l.headers.length, l.heights (l.headers.get i).hash = some i.val)))

/-- Height of the first entry of a batch (`0` for an empty batch). -/
def headHeight (es : List HeaderEntry) : Nat :=
  (es.head?.map (fun e => e.height)).getD 0

/-- Hash-freshness of a batch `es` against the part of the chain that a
successful `apply` keeps: no hash collisions among kept entries and new
entries.  Every real ingest satisfies this because block hashes are
collision-free digests. -/
def Fresh (l : HeaderList) (es : List HeaderEntry) : Prop :=
  (l.headers.take (headHeight es) ++ es).Pairwise (fun a b => a.hash ≠ b.hash)

instance (l : HeaderList) (es : List HeaderEntry) : Decidable (Fresh l es) :=
  inferInstanceAs (Decidable
    ((l.headers.take (headHeight es) ++ es).Pairwise
      (fun (a b : HeaderEntry) => a.hash ≠ b.hash)))

/-! ## `src/multi.rs` -/

/-- `MULTIADDR_SEPARATOR = "%7C"` (the URL-encoded `|`). -/
def multiaddrSeparator : List Char := ['%', '7', 'C']

/-- `XPUB_PREFIX = "xpub"`. -/
def xpubMarker : List Char := ['x', 'p', 'u', 'b']

/-- `DERIVE_SIZE = 100`. -/
def DERIVE_SIZE : Nat := 100

/-- Rust `str::split` on the fixed separator `"%7C"`: scan left to right,
cut at each (leftmost, non-overlapping) occurrence.  `acc` holds the
current chunk, reversed. -/
def splitSepAux : List Char → List Char → List (List Char)
  | [], acc => [acc.reverse]
  | c :: rest, acc =>
    if multiaddrSeparator.isPrefixOf (c :: rest) then
      acc.reverse :: splitSepAux ((c :: rest).drop multiaddrSeparator.length) []
    else
      splitSepAux rest (c :: acc)
termination_by xs _ => xs.length
decreasing_by
  · simp [multiaddrSeparator]
    omega
  · simp

/-- `input.split(MULTIADDR_SEPARATOR)`. -/
def splitSep (input : List Char) : List (List Char) :=
  splitSepAux input []

/-- Rust `input.contains(MULTIADDR_SEPARATOR)`: is the separator a
contiguous substring? -/
def containsSep : List Char → Bool
  | [] => false
  | c :: rest => multiaddrSeparator.isPrefixOf (c :: rest) || containsSep rest

/-- `xpub_multi_or_single` from `src/multi.rs` (strings as `List Char`):
route to xpub mode, split a literal batch, or pass the single address
through. -/
def xpub_multi_or_single (input : List Char) : List (List Char) × Bool :=
  if xpubMarker.isPrefixOf input then ([], true)
  else if containsSep input then (splitSep input, false)
  else ([input], false)

/-- `derive_batch` from `src/multi.rs`, parametrised by the per-index
derivation (`derive_by_index` composed of BIP32 derivation, address
rendering and script-hash conversion — external primitives).  The index
range is the code's `(from..to)` with `from = (page-1)*DERIVE_SIZE` and
`to = page*DERIVE_SIZE - 1`, a half-open Rust range. -/
def derive_batch {ι : Type u} (deriveAt : Nat → ι) (page : Nat) : List ι :=
  let lo : Nat := (page - 1) * DERIVE_SIZE
  let hi : Nat := page * DERIVE_SIZE - 1
  (List.range' lo (hi - lo)).map deriveAt

/-- The `for (addr, hash) in addresses` loop of `handle_xpub_inner`:
threads the `empty_count` gap counter through a batch, appending one
callback result per used address, and reports whether the 20-gap stop
fired (`done`). -/
def xpub_scan_batch {σ α : Type} (statsQ : Hash → σ × σ) (isEmptyS : σ → Bool)
    (callback : String → Hash → σ × σ → α) :
    List (String × Hash) → Nat → List α → List α × Nat × Bool
  | [], c, acc => (acc, c, false)
  | (addr, hash) :: rest, c, acc =>
    let stats := statsQ hash
    if isEmptyS stats.1 && isEmptyS stats.2 then
      if c + 1 ≥ 20 then (acc, c + 1, true)
      else xpub_scan_batch statsQ isEmptyS callback rest (c + 1) acc
    else
      xpub_scan_batch statsQ isEmptyS callback rest 0 (acc ++ [callback addr hash stats])

/-- The outer `loop` of `handle_xpub_inner`: derive a batch, scan it,
advance the page, stop when `done`.  The Rust loop has no iteration bound;
`fuel` bounds the number of pages scanned in the model, and `none` means
the stop rule did not fire within `fuel` pages. -/
def xpub_scan_pages {σ α : Type} (deriveAt : Nat → String × Hash) (statsQ : Hash → σ × σ)
    (isEmptyS : σ → Bool) (callback : String → Hash → σ × σ → α) :
    Nat → Nat → Nat → List α → Option (List α)
  | 0, _, _, _ => none
  | fuel + 1, page, c, acc =>
    match xpub_scan_batch statsQ isEmptyS callback (derive_batch deriveAt page) c acc with
    | (acc', c', done) => if done then some acc' else
        xpub_scan_pages deriveAt statsQ isEmptyS callback fuel (page + 1) c' acc'

/-- `handle_xpub_inner` from `src/multi.rs`: scan pages starting at 1 with
gap counter 0 and no results. -/
def handle_xpub_inner {σ α : Type} (deriveAt : Nat → String × Hash) (statsQ : Hash → σ × σ)
    (isEmptyS : σ → Bool) (callback : String → Hash → σ × σ → α) (fuel : Nat) :
    Option (List α) :=
  xpub_scan_pages deriveAt statsQ isEmptyS callback fuel 1 0 []

/-- `handle_multiaddr_inner` from `src/multi.rs`, parametrised by the
`to_scripthash` conversion and the `Query::stats` capability: convert each
address, silently drop conversion failures, query stats, aggregate. -/
def handle_multiaddr_inner {σ α : Type} (toScripthash : String → Option Hash)
    (statsQ : Hash → σ × σ) (callback : String → Hash → σ × σ → α)
    (addresses : List String) : List α :=
  (((addresses.map (fun addr => (addr, toScripthash addr))).filterMap
      (fun p => match p.2 with
        | some hash => some (p.1, hash)
        | none => none)).map
    (fun p => callback p.1 p.2 (statsQ p.2)))

/-- `AddressInfo` from `src/util/block.rs`, parametric in the external
value types (`ScriptStats`, `TransactionValue`, `UtxoValue`). -/
structure AddressInfo (σ τ υ : Type) where
  address : String
  chain_stats : Option σ
  mempool_stats : Option σ
  utxo : List υ
  chain_txs : List τ
  mempool_txs : List τ

/-- `AddressInfo::new`. -/
def AddressInfo.new (address : String) (stats : σ × σ) (chain_txs : List τ)
    (mempool_txs : List τ) : AddressInfo σ τ υ :=
  { address := address, chain_stats := some stats.1, mempool_stats := some stats.2,
    utxo := [], chain_txs := chain_txs, mempool_txs := mempool_txs }

/-- `AddressInfo::new_stats`. -/
def AddressInfo.new_stats (address : String) (stats : σ × σ) : AddressInfo σ τ υ :=
  { address := address, utxo := [], chain_stats := some stats.1,
    mempool_stats := some stats.2, chain_txs := [], mempool_txs := [] }

/-- `AddressInfo::new_utxo`. -/
def AddressInfo.new_utxo (address : String) (utxos : List υ) : AddressInfo σ τ υ :=
  { address := address, utxo := utxos, chain_stats := none, mempool_stats := none,
    chain_txs := [], mempool_txs := [] }

/-- `get_address_info` from `src/multi.rs`, with the chain/mempool history
queries and `prepare_txs` as external capabilities (`Tx` is the raw
transaction type, `Bid` the confirming `BlockId`). -/
def get_address_info {σ τ υ Tx Bid : Type} (chainHistory : Hash → List (Tx × Bid))
    (mempoolHistory : Hash → List Tx) (prepareTxs : List (Tx × Option Bid) → List τ)
    (addr : String) (hash : Hash) (stats : σ × σ) : AddressInfo σ τ υ :=
  let chain_txs_raw := (chainHistory hash).map (fun p => (p.1, some p.2))
  let mempool_txs_raw := (mempoolHistory hash).map (fun tx => (tx, (none : Option Bid)))
  AddressInfo.new addr stats (prepareTxs chain_txs_raw) (prepareTxs mempool_txs_raw)

/-- `get_address_stats` from `src/multi.rs`. -/
def get_address_stats {σ τ υ : Type} (addr : String) (_hash : Hash) (stats : σ × σ) :
    AddressInfo σ τ υ :=
  AddressInfo.new_stats addr stats

/-- `get_address_utxo` from `src/multi.rs`, with `Query::utxo` and the
`UtxoValue::from` conversion as external capabilities. -/
def get_address_utxo {σ τ υ₀ υ : Type} (utxoQ : Hash → List υ₀) (fromUtxo : υ₀ → υ)
    (addr : String) (_stats_hash : Hash) (stats : σ × σ) : AddressInfo σ τ υ :=
  let _ := stats
  AddressInfo.new_utxo addr ((utxoQ _stats_hash).map fromUtxo)

/-! ## Spec-side characterisation helpers -/

/-- Reference semantics of the gap-limit counter over a flat run of items:
given the emptiness oracle and a starting counter, returns
`(number of items processed before stopping, final counter, whether the
20-gap stop fired)`.  Empty items bump the counter, used items reset it to
zero, and the scan stops the moment the counter reaches 20. -/
def gapSpec {ι : Type u} (emptB : ι → Bool) : Nat → List ι → Nat × Nat × Bool
  | c, [] => (0, c, false)
  | c, i :: rest =>
    if emptB i then
      if c + 1 ≥ 20 then (1, c + 1, true)
      else
        let r := gapSpec emptB (c + 1) rest
        (r.1 + 1, r.2)
    else
      let r := gapSpec emptB 0 rest
      (r.1 + 1, r.2)

/-- The concatenated stream of `(address, hash)` pairs the scanner walks,
starting at page `page`, for `fuel` pages. -/
def xpub_pair_stream (deriveAt : Nat → String × Hash) (page fuel : Nat) :
    List (String × Hash) :=
  ((List.range fuel).map (fun k => derive_batch deriveAt (page + k))).flatten

/-- The derivation indices the scanner visits (pages from 1), in visit
order. -/
def xpub_index_stream (fuel : Nat) : List Nat :=
  ((List.range fuel).map (fun k => List.range' (k * DERIVE_SIZE) 99)).flatten

/-- Join chunks with a separator (reference semantics for `splitSep`). -/
def joinSep (sep : List Char) : List (List Char) → List Char
  | [] => []
  | [x] => x
  | x :: y :: rest => x ++ sep ++ joinSep sep (y :: rest)

/-- Result shape "stats only": both stats populated, no transactions, no
utxos (spec §3, AddressInfo). -/
def statsShapeB {σ τ υ : Type} (r : AddressInfo σ τ υ) : Bool :=
  r.chain_stats.isSome && r.mempool_stats.isSome &&
    r.chain_txs.isEmpty && r.mempool_txs.isEmpty && r.utxo.isEmpty

/-- Result shape "full info": both stats populated together with some
transaction history, no utxos. -/
def fullShapeB {σ τ υ : Type} (r : AddressInfo σ τ υ) : Bool :=
  r.chain_stats.isSome && r.mempool_stats.isSome &&
    (!r.chain_txs.isEmpty || !r.mempool_txs.isEmpty) && r.utxo.isEmpty

/-- Result shape "utxo only": a non-empty utxo list, stats absent, no
transactions. -/
def utxoShapeB {σ τ υ : Type} (r : AddressInfo σ τ υ) : Bool :=
  r.chain_stats.isNone && r.mempool_stats.isNone &&
    r.chain_txs.isEmpty && r.mempool_txs.isEmpty && !r.utxo.isEmpty

/-- The check on the first entry in `HeaderList::apply`: its
`prev_blockhash` must be the hash stored at `height - 1` (the null hash
for height 0); an out-of-range `height - 1` is the indexing panic. -/
def prevOkB (l : HeaderList) (e : HeaderEntry) : Bool :=
  if e.height = 0 then e.header.prev == 0
  else
    match l.headers.get? (e.height - 1) with
    | some p => e.header.prev == p.hash
    | none => false

/-- The state a successful `apply` produces: truncate at the first new
height, append the new entries, insert their hashes, move the tip. -/
def applyResult (l : HeaderList) (es : List HeaderEntry) : HeaderList :=
  { headers := l.headers.take (headHeight es) ++ es,
    heights := insertAll l.heights es,
    tip := lastTip l.tip es }

/-- Apply several batches in sequence, stopping at the first failure
(models consecutive ingest steps on one index). -/
def applyChain (l : HeaderList) : List (List HeaderEntry) → Outcome HeaderList
  | [] => .ok l
  | es :: rest =>
    match l.apply es with
    | .ok l' => applyChain l' rest
    | .typedError => .typedError
    | .panicked => .panicked

/-- Hashes of the chain entries of a successful outcome. -/
def okHashes (o : Outcome HeaderList) : Option (List Hash) :=
  match o with
  | .ok l => some (l.headers.map (fun e => e.hash))
  | _ => none

/-- Heights-map lookup inside a successful outcome. -/
def okHeightOf (o : Outcome HeaderList) (h : Hash) : Option Nat :=
  match o with
  | .ok l => l.heights h
  | _ => none

/-- A two-entry chain used to instantiate theorems about `HeaderList` at a
concrete state. -/
def sampleChain : HeaderList :=
  { headers := [⟨0, 1, ⟨0, 0⟩⟩, ⟨1, 2, ⟨1, 0⟩⟩],
    heights := fun h => if h = 2 then some 1 else if h = 1 then some 0 else none,
    tip := 2 }

/-! ## Lemmas about the header chain -/

theorem chainOk_cons_cons {a b : HeaderEntry} {rest : List HeaderEntry} :
    chainOk (a :: b :: rest) = true ↔
      a.height + 1 = b.height ∧ a.hash = b.header.prev ∧ chainOk (b :: rest) = true := by
  simp [chainOk, Bool.and_eq_true, beq_iff_eq, and_assoc]

theorem chainOk_tail {a : HeaderEntry} {rest : List HeaderEntry}
    (h : chainOk (a :: rest) = true) : chainOk rest = true := by
  cases rest with
  | nil => rfl
  | cons b rest' => exact (chainOk_cons_cons.mp h).2.2

theorem linksOk_iff_chain' {es : List HeaderEntry} :
    linksOk es = true ↔ List.Chain' (fun a b => b.header.prev = a.hash) es := by
  induction es with
  | nil => simp [linksOk]
  | cons a rest ih =>
    cases rest with
    | nil => simp [linksOk]
    | cons b rest' =>
      rw [List.chain'_cons]
      simp only [linksOk, Bool.and_eq_true, beq_iff_eq]
      exact and_congr Iff.rfl ih

theorem chainOk_iff_chain' {es : List HeaderEntry} :
    chainOk es = true ↔
      List.Chain' (fun a b => a.height + 1 = b.height ∧ a.hash = b.header.prev) es := by
  induction es with
  | nil => simp [chainOk]
  | cons a rest ih =>
    cases rest with
    | nil => simp [chainOk]
    | cons b rest' =>
      rw [List.chain'_cons, chainOk_cons_cons, and_assoc]
      exact and_congr Iff.rfl (and_congr Iff.rfl ih)

theorem chainOk_get_height {es : List HeaderEntry} (hck : chainOk es = true)
    (j : Nat) (hj : j < es.length) (h0 : 0 < es.length) :
    (es.get ⟨j, hj⟩).height = (es.get ⟨0, h0⟩).height + j := by
  induction j with
  | zero => rfl
  | succ j' ih =>
    have hj' : j' < es.length := by omega
    have hstep := (List.chain'_iff_get.mp (chainOk_iff_chain'.mp hck)) j' (by omega)
    have h1 : es.get ⟨j' + 1, by omega⟩ = es.get ⟨j' + 1, hj⟩ := rfl
    rw [h1] at hstep
    have h2 := ih hj'
    omega

theorem chainOk_get_link {es : List HeaderEntry} (hck : chainOk es = true)
    (j : Nat) (hj : j + 1 < es.length) :
    (es.get ⟨j + 1, hj⟩).header.prev = (es.get ⟨j, by omega⟩).hash := by
  have hstep := (List.chain'_iff_get.mp (chainOk_iff_chain'.mp hck)) j (by omega)
  have h1 : es.get ⟨j + 1, by omega⟩ = es.get ⟨j + 1, hj⟩ := rfl
  rw [h1] at hstep
  exact hstep.2.symm

theorem lastTip_cons {t : Hash} {e : HeaderEntry} {rest : List HeaderEntry} :
    lastTip t (e :: rest) = lastTip e.hash rest := by
  cases rest with
  | nil => simp [lastTip]
  | cons b rest' =>
    rw [lastTip, lastTip, List.getLast?_cons_cons]
    cases hlast : (b :: rest').getLast? with
    | none => simp at hlast
    | some x => simp

theorem insertAll_nil {m : Hash → Option Nat} : insertAll m [] = m := rfl

theorem insertAll_cons {m : Hash → Option Nat} {e : HeaderEntry} {es : List HeaderEntry} :
    insertAll m (e :: es) =
      insertAll (fun h => if h = e.hash then some e.height else m h) es := rfl

theorem insertAll_not_mem {m : Hash → Option Nat} {es : List HeaderEntry} {h : Hash}
    (hnm : ∀ e ∈ es, e.hash ≠ h) : insertAll m es h = m h := by
  induction es generalizing m with
  | nil => rfl
  | cons e rest ih =>
    rw [insertAll_cons, ih (fun e' he' => hnm e' (List.mem_cons_of_mem _ he'))]
    simp [Ne.symm (hnm e (List.mem_cons_self _ _))]

theorem insertAll_get {m : Hash → Option Nat} {es : List HeaderEntry}
    (hdist : es.Pairwise (fun a b => a.hash ≠ b.hash))
    {j : Nat} (hj : j < es.length) :
    insertAll m es ((es.get ⟨j, hj⟩).hash) = some ((es.get ⟨j, hj⟩).height) := by
  induction es generalizing m j with
  | nil => simp at hj
  | cons e rest ih =>
    rw [insertAll_cons]
    cases j with
    | zero =>
      have hget : (e :: rest).get ⟨0, hj⟩ = e := rfl
      rw [hget]
      have hnm : ∀ e' ∈ rest, e'.hash ≠ e.hash :=
        fun e' he' => Ne.symm ((List.pairwise_cons.mp hdist).1 e' he')
      rw [insertAll_not_mem hnm]
      simp
    | succ j' =>
      exact ih (List.pairwise_cons.mp hdist).2 (by simpa using Nat.lt_of_succ_lt_succ hj)

theorem insertAll_invariant {m : Hash → Option Nat} {es : List HeaderEntry}
    (hin : ∀ e ∈ es, m e.hash = some e.height) : insertAll m es = m := by
  induction es with
  | nil => rfl
  | cons e rest ih =>
    rw [insertAll_cons]
    have hm : (fun h => if h = e.hash then some e.height else m h) = m := by
      funext x
      by_cases hx : x = e.hash
      · rw [hx, if_pos rfl, (hin e (List.mem_cons_self _ _)).symm]
      · rw [if_neg hx]
    rw [hm]
    exact ih (fun e' he' => hin e' (List.mem_cons_of_mem _ he'))


theorem pushEntries_eq_ok {es : List HeaderEntry} {l : HeaderList}
    (hck : chainOk es = true)
    (hfst : ∀ e ∈ es.head?, e.height = l.headers.length) :
    pushEntries l es =
      .ok { headers := l.headers ++ es, heights := insertAll l.heights es,
            tip := lastTip l.tip es } := by
  induction es generalizing l with
  | nil => simp [pushEntries, insertAll_nil, lastTip]
  | cons e rest ih =>
    have he : e.height = l.headers.length := hfst e (by simp)
    rw [pushEntries, if_pos (by simpa using he)]
    have hfst' : ∀ e' ∈ rest.head?,
        e'.height = (l.headers ++ [e]).length := by
      intro e' he'
      cases rest with
      | nil => simp at he'
      | cons b rest' =>
        have hb : b = e' := by simpa using he'
        have hstep := (chainOk_cons_cons.mp hck).1
        rw [← hb, List.length_append]
        simp [← hstep, he]
    rw [ih (chainOk_tail hck) hfst']
    rw [insertAll_cons, lastTip_cons, List.append_assoc, List.singleton_append]

theorem apply_eq_ok {l : HeaderList} {es : List HeaderEntry} {e : HeaderEntry}
    (hhd : es.head? = some e) (hck : chainOk es = true)
    (hprev : prevOkB l e = true) :
    l.apply es = .ok (applyResult l es) := by
  cases es with
  | nil => simp at hhd
  | cons e0 rest =>
    have he0 : e0 = e := by simpa using hhd
    subst he0
    have hlen : e0.height ≤ l.headers.length := by
      by_cases h0 : e0.height = 0
      · omega
      · rw [prevOkB, if_neg h0] at hprev
        cases hget : l.headers.get? (e0.height - 1) with
        | none =>
          rw [hget] at hprev
          have hfalse : (false : Bool) = true := hprev
          exact absurd hfalse (by decide)
        | some p =>
          obtain ⟨hh, _⟩ := List.get?_eq_some.mp hget
          omega
    have hfst : ∀ e' ∈ (e0 :: rest).head?,
        e'.height = (truncAt l e0.height).headers.length := by
      intro e' he'
      have hb : e0 = e' := by simpa using he'
      rw [← hb]
      simp only [truncAt, List.length_take]
      omega
    have hres : applyResult l (e0 :: rest) =
        { headers := (truncAt l e0.height).headers ++ (e0 :: rest),
          heights := insertAll (truncAt l e0.height).heights (e0 :: rest),
          tip := lastTip (truncAt l e0.height).tip (e0 :: rest) } := by
      simp [applyResult, truncAt, headHeight]
    rw [HeaderList.apply, if_pos hck, hres]
    by_cases h0 : e0.height = 0
    · have hp : e0.header.prev = 0 := by
        rw [prevOkB, if_pos h0] at hprev
        simpa using hprev
      rw [if_pos h0, if_pos hp]
      exact pushEntries_eq_ok hck hfst
    · rw [prevOkB, if_neg h0] at hprev
      rw [if_neg h0]
      cases hget : l.headers.get? (e0.height - 1) with
      | none =>
        rw [hget] at hprev
        have hfalse : (false : Bool) = true := hprev
        exact absurd hfalse (by decide)
      | some p =>
        rw [hget] at hprev
        have hpb : (e0.header.prev == p.hash) = true := hprev
        have hp : e0.header.prev = p.hash := by simpa using hpb
        show (if e0.header.prev = p.hash
            then pushEntries (truncAt l e0.height) (e0 :: rest)
            else Outcome.panicked) = _
        rw [if_pos hp]
        exact pushEntries_eq_ok hck hfst

theorem apply_ok_cases {l : HeaderList} {es : List HeaderEntry} {l' : HeaderList}
    (h : l.apply es = .ok l') :
    (es = [] ∧ l' = l) ∨
      (∃ e, es.head? = some e ∧ chainOk es = true ∧ prevOkB l e = true ∧
        l' = applyResult l es) := by
  by_cases hck : chainOk es = true
  · cases es with
    | nil =>
      left
      refine ⟨rfl, ?_⟩
      rw [HeaderList.apply, if_pos hck] at h
      cases h
      rfl
    | cons e0 rest =>
      right
      refine ⟨e0, rfl, hck, ?_⟩
      have hprev : prevOkB l e0 = true := by
        rw [HeaderList.apply, if_pos hck] at h
        by_cases h0 : e0.height = 0
        · rw [prevOkB, if_pos h0]
          by_cases hp : e0.header.prev = 0
          · simpa using hp
          · rw [if_pos h0, if_neg hp] at h
            cases h
        · rw [prevOkB, if_neg h0]
          rw [if_neg h0] at h
          cases hget : l.headers.get? (e0.height - 1) with
          | none =>
            rw [hget] at h
            have h2 : (Outcome.panicked : Outcome HeaderList) = Outcome.ok l' := h
            cases h2
          | some p =>
            rw [hget] at h
            show (e0.header.prev == p.hash) = true
            by_cases hp : e0.header.prev = p.hash
            · simpa using hp
            · have h2 : (if e0.header.prev = p.hash
                  then pushEntries (truncAt l e0.height) (e0 :: rest)
                  else Outcome.panicked) = Outcome.ok l' := h
              rw [if_neg hp] at h2
              cases h2
      refine ⟨hprev, ?_⟩
      have happ := @apply_eq_ok l (e0 :: rest) e0 rfl hck hprev
      rw [happ] at h
      cases h
      rfl
  · rw [HeaderList.apply.eq_def] at h
    rw [if_neg hck] at h
    cases h

theorem prevOkB_le {l : HeaderList} {e : HeaderEntry} (hprev : prevOkB l e = true) :
    e.height ≤ l.headers.length := by
  by_cases h0 : e.height = 0
  · omega
  · rw [prevOkB, if_neg h0] at hprev
    cases hget : l.headers.get? (e.height - 1) with
    | none =>
      rw [hget] at hprev
      have hfalse : (false : Bool) = true := hprev
      exact absurd hfalse (by decide)
    | some p =>
      obtain ⟨hh, _⟩ := List.get?_eq_some.mp hget
      omega

theorem prevOkB_pos {l : HeaderList} {e : HeaderEntry} (hprev : prevOkB l e = true)
    (h0 : 0 < e.height) :
    ∃ hlt : e.height - 1 < l.headers.length,
      e.header.prev = (l.headers.get ⟨e.height - 1, hlt⟩).hash := by
  rw [prevOkB, if_neg (by omega)] at hprev
  cases hget : l.headers.get? (e.height - 1) with
  | none =>
    rw [hget] at hprev
    have hfalse : (false : Bool) = true := hprev
    exact absurd hfalse (by decide)
  | some p =>
    rw [hget] at hprev
    obtain ⟨hh, hv⟩ := List.get?_eq_some.mp hget
    refine ⟨hh, ?_⟩
    rw [hv]
    have hpb : (e.header.prev == p.hash) = true := hprev
    simpa using hpb

theorem chainInv_applyResult {l : HeaderList} {e0 : HeaderEntry} {rest : List HeaderEntry}
    (hInv : ChainInv l) (hck : chainOk (e0 :: rest) = true)
    (hprev : prevOkB l e0 = true) (hfresh : Fresh l (e0 :: rest)) :
    ChainInv (applyResult l (e0 :: rest)) := by
  obtain ⟨hih, hh0, hilink, hitip, himap⟩ := hInv
  have hKle : e0.height ≤ l.headers.length := prevOkB_le hprev
  have hAlen : (l.headers.take e0.height).length = e0.height := by
    rw [List.length_take]
    omega
  have hes_height : ∀ j (hj : j < (e0 :: rest).length),
      ((e0 :: rest).get ⟨j, hj⟩).height = e0.height + j := by
    intro j hj
    exact chainOk_get_height hck j hj (by simp)
  have hfresh' : (l.headers.take e0.height ++ (e0 :: rest)).Pairwise
      (fun a b => a.hash ≠ b.hash) := hfresh
  obtain ⟨_, hdist_es, hcross⟩ := List.pairwise_append.mp hfresh'
  show ChainInv
    { headers := l.headers.take e0.height ++ (e0 :: rest),
      heights := insertAll l.heights (e0 :: rest),
      tip := lastTip l.tip (e0 :: rest) }
  refine ⟨?_, ?_, ?_, ?_, ?_⟩
  · -- heights match positions
    intro i
    have hi := i.isLt
    simp only [List.length_append, hAlen, List.length_cons] at hi
    rw [List.get_eq_getElem]
    by_cases hiK : i.val < e0.height
    · rw [List.getElem_append_left (by omega), List.getElem_take]
      have := hih ⟨i.val, by omega⟩
      rw [List.get_eq_getElem] at this
      exact this
    · rw [List.getElem_append_right (by omega)]
      have hj : i.val - (l.headers.take e0.height).length < (e0 :: rest).length := by
        simp only [hAlen, List.length_cons]
        omega
      have hval := hes_height (i.val - (l.headers.take e0.height).length) hj
      rw [List.get_eq_getElem] at hval
      rw [hval, hAlen]
      omega
  · -- the first entry has a null prev
    intro e' he'
    by_cases h0 : e0.height = 0
    · rw [h0] at he'
      simp only [List.take_zero, List.nil_append] at he'
      have he0 : e0 = e' := by simpa using he'
      rw [← he0]
      rw [prevOkB, if_pos h0] at hprev
      simpa using hprev
    · have hlen0 : 0 < (l.headers.take e0.height ++ (e0 :: rest)).length := by
        simp
      rw [List.head?_eq_getElem?, List.getElem?_eq_getElem hlen0] at he'
      have he'' : (l.headers.take e0.height ++ (e0 :: rest))[0] = e' := by
        simpa using he'
      rw [List.getElem_append_left (by omega : 0 < (l.headers.take e0.height).length),
        List.getElem_take] at he''
      rw [← he'']
      refine hh0 (l.headers[0]) ?_
      have hl0 : 0 < l.headers.length := by omega
      rw [List.head?_eq_getElem?, List.getElem?_eq_getElem hl0]
      rfl
  · -- hash linkage
    rw [linksOk_iff_chain', List.chain'_append]
    refine ⟨(linksOk_iff_chain'.mp hilink).take _, ?_, ?_⟩
    · exact (chainOk_iff_chain'.mp hck).imp (fun a b hab => hab.2.symm)
    · intro x hx y hy
      have hy0 : e0 = y := by simpa using hy
      rw [← hy0]
      have hK0 : 0 < e0.height := by
        by_contra hc
        have h0eq : e0.height = 0 := by omega
        rw [h0eq, List.take_zero] at hx
        simp at hx
      obtain ⟨hlt, hpe⟩ := prevOkB_pos hprev hK0
      have hxval : x = l.headers.get ⟨e0.height - 1, hlt⟩ := by
        rw [List.getLast?_eq_getElem?, hAlen] at hx
        have hlt' : e0.height - 1 < (l.headers.take e0.height).length := by
          rw [hAlen]; omega
        rw [List.getElem?_eq_getElem hlt'] at hx
        have hx' : (l.headers.take e0.height)[e0.height - 1] = x := by simpa using hx
        rw [List.getElem_take] at hx'
        rw [← hx']
        rw [List.get_eq_getElem]
      rw [hxval]
      exact hpe
  · -- tip bookkeeping
    have hne : (e0 :: rest) ≠ [] := by simp
    obtain ⟨x, hx⟩ : ∃ x, (e0 :: rest).getLast? = some x := by
      cases hl : (e0 :: rest).getLast? with
      | none => simp at hl
      | some x => exact ⟨x, rfl⟩
    simp [lastTip, lastHash, hx, List.getLast?_append_of_ne_nil _ hne]
  · -- every present hash maps to its height
    intro i
    have hi := i.isLt
    simp only [List.length_append, hAlen, List.length_cons] at hi
    rw [List.get_eq_getElem]
    by_cases hiK : i.val < e0.height
    · rw [List.getElem_append_left (by omega : i.val < (l.headers.take e0.height).length)]
      have hmem : (l.headers.take e0.height)[i.val] ∈ l.headers.take e0.height :=
        List.getElem_mem _
      have hnm : ∀ e' ∈ (e0 :: rest), e'.hash ≠ (l.headers.take e0.height)[i.val].hash :=
        fun e' he' => Ne.symm (hcross _ hmem e' he')
      show insertAll l.heights (e0 :: rest) _ = _
      rw [insertAll_not_mem hnm, List.getElem_take]
      have := himap ⟨i.val, by omega⟩
      rw [List.get_eq_getElem] at this
      exact this
    · rw [List.getElem_append_right (by omega)]
      have hj : i.val - (l.headers.take e0.height).length < (e0 :: rest).length := by
        simp only [hAlen, List.length_cons]
        omega
      show insertAll l.heights (e0 :: rest) _ = _
      have hget := insertAll_get (m := l.heights) hdist_es hj
      rw [List.get_eq_getElem] at hget
      rw [hget]
      have hval := hes_height (i.val - (l.headers.take e0.height).length) hj
      rw [List.get_eq_getElem] at hval
      rw [hval, hAlen]
      simp only [Option.some.injEq]
      omega

theorem HeaderList.ext' {a b : HeaderList} (h1 : a.headers = b.headers)
    (h2 : a.heights = b.heights) (h3 : a.tip = b.tip) : a = b := by
  cases a
  cases b
  simp_all

theorem chainInv_empty : ChainInv HeaderList.empty := by
  refine ⟨?_, ?_, ?_, ?_, ?_⟩
  · intro i
    exact absurd i.isLt (by simp [HeaderList.empty])
  · intro e he
    simp [HeaderList.empty] at he
  · rfl
  · rfl
  · intro i
    exact absurd i.isLt (by simp [HeaderList.empty])

theorem apply_nil (l : HeaderList) : l.apply [] = .ok l := rfl

theorem chainInv_preserved {l l' : HeaderList} {es : List HeaderEntry}
    (hInv : ChainInv l) (hfresh : Fresh l es) (happ : l.apply es = .ok l') :
    ChainInv l' := by
  rcases apply_ok_cases happ with ⟨_, hl⟩ | ⟨e, hhd, hck, hprev, hl⟩
  · rw [hl]
    exact hInv
  · cases es with
    | nil => simp at hhd
    | cons e0 rest =>
      have he0 : e0 = e := by simpa using hhd
      subst he0
      rw [hl]
      exact chainInv_applyResult hInv hck hprev hfresh

theorem get_drop' {l : List HeaderEntry} {K j : Nat} (h : j < (l.drop K).length)
    (h2 : K + j < l.length) :
    (l.drop K).get ⟨j, h⟩ = l.get ⟨K + j, h2⟩ := by
  simp [List.get_eq_getElem, List.getElem_drop]

theorem chainOk_drop {l : HeaderList} (hInv : ChainInv l) (K : Nat) :
    chainOk (l.headers.drop K) = true := by
  obtain ⟨hih, _, hilink, _, _⟩ := hInv
  rw [chainOk_iff_chain', List.chain'_iff_get]
  intro i hi
  have hlen : (l.headers.drop K).length = l.headers.length - K := by simp
  have hKi : K + i < l.headers.length := by omega
  have hKi1 : K + (i + 1) < l.headers.length := by omega
  rw [get_drop' _ hKi, get_drop' _ hKi1]
  constructor
  · have h1 : (l.headers.get ⟨K + i, hKi⟩).height = K + i := hih ⟨K + i, hKi⟩
    have h2 : (l.headers.get ⟨K + (i + 1), hKi1⟩).height = K + (i + 1) :=
      hih ⟨K + (i + 1), hKi1⟩
    omega
  · have hlk := (List.chain'_iff_get.mp (linksOk_iff_chain'.mp hilink)) (K + i) (by omega)
    exact hlk.symm

theorem apply_drop_noop {l : HeaderList} (hInv : ChainInv l) (K : Nat) :
    l.apply (l.headers.drop K) = .ok l := by
  by_cases hK : K < l.headers.length
  · obtain ⟨hih, hh0, hilink, hitip, himap⟩ := hInv
    have hlend : (l.headers.drop K).length = l.headers.length - K := by simp
    have hhd : (l.headers.drop K).head? = some (l.headers.get ⟨K, hK⟩) := by
      rw [List.head?_drop, List.get_eq_getElem, List.getElem?_eq_getElem hK]
    have hKheight : (l.headers.get ⟨K, hK⟩).height = K := hih ⟨K, hK⟩
    have hprev : prevOkB l (l.headers.get ⟨K, hK⟩) = true := by
      rw [prevOkB]
      by_cases h0 : K = 0
      · subst h0
        rw [if_pos hKheight]
        have hmem : l.headers.get ⟨0, hK⟩ ∈ l.headers.head? := by
          rw [List.head?_eq_getElem?, List.get_eq_getElem, List.getElem?_eq_getElem hK]
          rfl
        simpa using hh0 _ hmem
      · rw [if_neg (by rw [hKheight]; omega)]
        have hK1 : K - 1 < l.headers.length := by omega
        have hsc : l.headers.get? ((l.headers.get ⟨K, hK⟩).height - 1) =
            some (l.headers.get ⟨K - 1, hK1⟩) := by
          rw [hKheight, List.get?_eq_getElem?, List.get_eq_getElem,
            List.getElem?_eq_getElem hK1]
        rw [hsc]
        show ((l.headers.get ⟨K, hK⟩).header.prev == (l.headers.get ⟨K - 1, hK1⟩).hash) = true
        have hlk := (List.chain'_iff_get.mp (linksOk_iff_chain'.mp hilink)) (K - 1) (by omega)
        have hlk2 : (l.headers.get ⟨K, hK⟩).header.prev =
            (l.headers.get ⟨K - 1, hK1⟩).hash := by
          have hidx : K - 1 + 1 = K := by omega
          have hcast : l.headers.get ⟨K - 1 + 1, by omega⟩ = l.headers.get ⟨K, hK⟩ := by
            congr 1
            exact Fin.ext hidx
          rw [← hcast]
          exact hlk
        simpa using hlk2
    rw [apply_eq_ok hhd (chainOk_drop ⟨hih, hh0, hilink, hitip, himap⟩ K) hprev]
    have hHH : headHeight (l.headers.drop K) = K := by
      rw [headHeight, hhd]
      simpa using hKheight
    have hne : l.headers.drop K ≠ [] := by
      intro hc
      rw [hc] at hlend
      simp at hlend
      omega
    have hsplit : l.headers = l.headers.take K ++ l.headers.drop K :=
      (List.take_append_drop K l.headers).symm
    obtain ⟨x, hx⟩ : ∃ x, (l.headers.drop K).getLast? = some x := by
      cases hl : (l.headers.drop K).getLast? with
      | none =>
        rw [List.getLast?_eq_none_iff] at hl
        exact absurd hl hne
      | some x => exact ⟨x, rfl⟩
    refine congrArg Outcome.ok (HeaderList.ext' ?_ ?_ ?_)
    · show l.headers.take (headHeight (l.headers.drop K)) ++ l.headers.drop K = l.headers
      rw [hHH, List.take_append_drop]
    · show insertAll l.heights (l.headers.drop K) = l.heights
      refine insertAll_invariant ?_
      intro e' he'
      obtain ⟨j, hje⟩ := List.mem_iff_get.mp he'
      have hj' : K + j.val < l.headers.length := by
        have hjl := j.isLt
        omega
      rw [← hje, get_drop' _ hj']
      have hm : l.heights ((l.headers.get ⟨K + j.val, hj'⟩).hash) = some (K + j.val) :=
        himap ⟨K + j.val, hj'⟩
      have hh : (l.headers.get ⟨K + j.val, hj'⟩).height = K + j.val :=
        hih ⟨K + j.val, hj'⟩
      rw [hm, hh]
    · show lastTip l.tip (l.headers.drop K) = l.tip
      have hlx : l.headers.getLast? = some x := by
        conv_lhs => rw [hsplit]
        rw [List.getLast?_append_of_ne_nil _ hne, hx]
      rw [lastTip, hx, hitip, lastHash, hlx]
      simp
  · have hd : l.headers.drop K = [] := by
      apply List.drop_eq_nil_of_le
      omega
    rw [hd]
    exact apply_nil l

theorem pushEntries_ok_or_panicked (l : HeaderList) (es : List HeaderEntry) :
    (∃ l', pushEntries l es = .ok l') ∨ pushEntries l es = .panicked := by
  induction es generalizing l with
  | nil => exact Or.inl ⟨l, rfl⟩
  | cons e rest ih =>
    rw [pushEntries]
    by_cases hh : (e.height == l.headers.length) = true
    · rw [if_pos hh]
      exact ih _
    · rw [if_neg hh]
      exact Or.inr rfl

theorem apply_ok_or_panicked (l : HeaderList) (es : List HeaderEntry) :
    (∃ l', l.apply es = .ok l') ∨ l.apply es = .panicked := by
  rw [HeaderList.apply.eq_def]
  split
  · split
    next => exact Or.inl ⟨l, rfl⟩
    next e tail =>
      split
      · split
        · exact pushEntries_ok_or_panicked _ _
        · exact Or.inr rfl
      · split
        next => exact Or.inr rfl
        next p hget =>
          split
          · exact pushEntries_ok_or_panicked _ _
          · exact Or.inr rfl
  · exact Or.inr rfl

theorem apply_panicked_of_not_chainOk {l : HeaderList} {es : List HeaderEntry}
    (hck : chainOk es = false) : l.apply es = .panicked := by
  rw [HeaderList.apply.eq_def, if_neg (by rw [hck]; exact Bool.false_ne_true)]

theorem apply_panicked_of_not_prevOk {l : HeaderList} {es : List HeaderEntry}
    {e : HeaderEntry} (hhd : es.head? = some e) (hprev : prevOkB l e = false) :
    l.apply es = .panicked := by
  rcases apply_ok_or_panicked l es with ⟨l', hok⟩ | hp
  · rcases apply_ok_cases hok with ⟨hnil, _⟩ | ⟨e', hhd', _, hprev', _⟩
    · rw [hnil] at hhd
      simp at hhd
    · rw [hhd'] at hhd
      have he' : e' = e := by simpa using hhd
      rw [he'] at hprev'
      rw [hprev'] at hprev
      cases hprev
  · exact hp

theorem header_by_blockhash_sound {l : HeaderList} {h : Hash} {e : HeaderEntry}
    (hfind : l.header_by_blockhash h = some e) : e.hash = h ∧ e ∈ l.headers := by
  rw [HeaderList.header_by_blockhash] at hfind
  split at hfind
  next => cases hfind
  next height hht =>
    split at hfind
    next => cases hfind
    next header hget =>
      split at hfind
      next hx =>
        have he : header = e := by simpa using hfind
        subst he
        exact ⟨hx.symm, List.get?_mem hget⟩
      next hx => cases hfind

/-! ## Claim theorems: header chain index -/

/-- C10: Calling `apply` with an empty list of new entries is a complete
no-op on any index state: it succeeds (the contiguity loop is vacuous and
the function returns before the first-entry validation) and the ordered
chain, the hash-to-height mapping, and the tip are all left unchanged. -/
theorem C10_apply_empty_noop (l : HeaderList) : l.apply [] = Outcome.ok l :=
  apply_nil l

/-- C6: Re-applying a suffix of entries that the index already contains
(ending at its tip) is a no-op: the resulting outcome is `ok` with the
ordered chain contents, the hash-to-height mapping, and the tip all equal
to their previous values. -/
theorem C6_reapply_suffix_noop (l : HeaderList) (K : Nat) (es : List HeaderEntry)
    (hInv : ChainInv l) (hes : es = l.headers.drop K) :
    l.apply es = Outcome.ok l := by
  rw [hes]
  exact apply_drop_noop hInv K

theorem C6_reapply_suffix_noop_witness :
    sampleChain.apply (sampleChain.headers.drop 1) = Outcome.ok sampleChain :=
  C6_reapply_suffix_noop sampleChain 1 (sampleChain.headers.drop 1) (by decide) rfl

/-- C5: Reorg behaviour of `apply`: for every index satisfying the chain
invariant and every internally valid branch whose first entry has height
`K` below the current length and whose first previous-hash matches the
entry stored at `K - 1` (null for `K = 0`, as captured by `prevOkB`),
applying the branch succeeds, keeps exactly the entries below `K`, appends
the branch, yields length `K + (branch length)`, and moves the tip to the
branch's last hash. -/
theorem C5_reorg_truncate_append (l : HeaderList) (es : List HeaderEntry)
    (e : HeaderEntry) (hInv : ChainInv l) (hhd : es.head? = some e)
    (hck : chainOk es = true) (hK : e.height < l.headers.length)
    (hprev : prevOkB l e = true) :
    ∃ l', l.apply es = Outcome.ok l' ∧
      l'.headers = l.headers.take e.height ++ es ∧
      l'.headers.length = e.height + es.length ∧
      (∀ x ∈ es.getLast?, l'.tip = x.hash) := by
  refine ⟨applyResult l es, apply_eq_ok hhd hck hprev, ?_, ?_, ?_⟩
  · show l.headers.take (headHeight es) ++ es = _
    rw [headHeight, hhd]
    rfl
  · show (l.headers.take (headHeight es) ++ es).length = _
    rw [headHeight, hhd]
    simp only [Option.map_some', Option.getD_some, List.length_append, List.length_take]
    omega
  · intro x hx
    show lastTip l.tip es = x.hash
    rw [lastTip]
    cases es with
    | nil => simp at hx
    | cons e0 rest =>
      obtain ⟨y, hy⟩ : ∃ y, (e0 :: rest).getLast? = some y := by
        cases hl : (e0 :: rest).getLast? with
        | none => simp at hl
        | some y => exact ⟨y, rfl⟩
      rw [hy] at hx
      have hxy : y = x := by simpa using hx
      rw [hy, hxy]
      rfl

theorem C5_reorg_truncate_append_witness :
    ∃ l', sampleChain.apply [⟨1, 3, ⟨1, 0⟩⟩] = Outcome.ok l' ∧
      l'.headers = sampleChain.headers.take 1 ++ [⟨1, 3, ⟨1, 0⟩⟩] ∧
      l'.headers.length = 1 + 1 ∧
      (∀ x ∈ ([⟨1, 3, ⟨1, 0⟩⟩] : List HeaderEntry).getLast?, l'.tip = x.hash) :=
  C5_reorg_truncate_append sampleChain [⟨1, 3, ⟨1, 0⟩⟩] ⟨1, 3, ⟨1, 0⟩⟩
    (by decide) rfl (by decide) (by decide) (by decide)

/-- C2 counterexample: the hash→height map is not a bijection onto the
present heights.  Starting from the empty index, apply `[e0, e1]` (hashes
1, 2) and then the reorg branch `[e1']` (hash 3, height 1).  The resulting
chain holds hashes `[1, 3]` — the entry with hash 2 was discarded — yet
the map still sends the stale hash 2 to height 1 alongside hash 3, so a
hash of a discarded entry remains mapped and two distinct hashes map to
one present height. -/
theorem C2_counterexample_stale_hash :
    okHashes (applyChain HeaderList.empty
        [[⟨0, 1, ⟨0, 0⟩⟩, ⟨1, 2, ⟨1, 0⟩⟩], [⟨1, 3, ⟨1, 0⟩⟩]]) = some [1, 3] ∧
    okHeightOf (applyChain HeaderList.empty
        [[⟨0, 1, ⟨0, 0⟩⟩, ⟨1, 2, ⟨1, 0⟩⟩], [⟨1, 3, ⟨1, 0⟩⟩]]) 2 = some 1 ∧
    okHeightOf (applyChain HeaderList.empty
        [[⟨0, 1, ⟨0, 0⟩⟩, ⟨1, 2, ⟨1, 0⟩⟩], [⟨1, 3, ⟨1, 0⟩⟩]]) 3 = some 1 := by
  refine ⟨rfl, rfl, rfl⟩

/-- C2 amended: the HeaderChainIndex invariant — heights match positions,
the first entry's previous-hash is null, consecutive entries are
hash-linked, the tip is the last entry's hash (null when empty), and every
*present* entry's hash maps to its height — holds for the empty index and
is preserved by every successful `apply` whose entries satisfy hash
freshness (no collisions with the kept prefix, as real digests guarantee).
The map is *not* a bijection: hashes of discarded entries may stay mapped;
`header_by_blockhash` compensates by re-validating, returning only an
entry that is present and actually bears the queried hash. -/
theorem C2_invariant_established_preserved :
    ChainInv HeaderList.empty ∧
    (∀ (l l' : HeaderList) (es : List HeaderEntry),
      ChainInv l → Fresh l es → l.apply es = Outcome.ok l' → ChainInv l') ∧
    (∀ (l : HeaderList) (h : Hash) (e : HeaderEntry),
      l.header_by_blockhash h = some e → e.hash = h ∧ e ∈ l.headers) :=
  ⟨chainInv_empty,
   fun _ _ _ hInv hfresh happ => chainInv_preserved hInv hfresh happ,
   fun _ _ _ hfind => header_by_blockhash_sound hfind⟩

theorem C2_invariant_established_preserved_witness :
    ChainInv { headers := [⟨0, 1, ⟨0, 0⟩⟩, ⟨1, 3, ⟨1, 0⟩⟩],
               heights := fun h => if h = 3 then some 1 else
                 if h = 2 then some 1 else if h = 1 then some 0 else none,
               tip := 3 } :=
  C2_invariant_established_preserved.2.1 sampleChain _ [⟨1, 3, ⟨1, 0⟩⟩]
    (by decide) (by decide) rfl

/-- C3 counterexample: invariant violations are *not* surfaced as typed
errors.  Constructing an index from a header map whose tip header points
at a missing ancestor (hash 7 absent from the map) produces the `expect`
panic, not a returned error; applying entries with non-contiguous heights
(0 then 5) hits the `assert_eq!` panic, not a returned error.  In this
embedding `Outcome.typedError` is the codebase's `Result::Err` channel and
`Outcome.panicked` the process-aborting panic. -/
theorem C3_counterexample_panic_not_typed_error :
    Outcome.isPanicked (HeaderList.new (fun _ => 0) [(5, ⟨7, 0⟩)] 5) = true ∧
    Outcome.isTypedError (HeaderList.new (fun _ => 0) [(5, ⟨7, 0⟩)] 5) = false ∧
    Outcome.isPanicked (HeaderList.empty.apply [⟨0, 1, ⟨0, 0⟩⟩, ⟨5, 2, ⟨1, 0⟩⟩]) = true ∧
    Outcome.isTypedError (HeaderList.empty.apply [⟨0, 1, ⟨0, 0⟩⟩, ⟨5, 2, ⟨1, 0⟩⟩]) = false := by
  have hw2 : walkBack ([] : List (Hash × Header)) 7 = Outcome.panicked := by
    rw [walkBack.eq_def]
    norm_num
    split
    next => rfl
    next hd m' heq => simp [lookupRemove] at heq
  have hw : walkBack [(5, ⟨7, 0⟩)] 5 = Outcome.panicked := by
    rw [walkBack.eq_def]
    norm_num
    split
    next => rfl
    next hd m' heq =>
      have hpair : (⟨7, 0⟩ : Header) = hd ∧ m' = [] := by
        simpa [lookupRemove] using heq
      rw [← hpair.1, hpair.2]
      simp [hw2]
  have hnew : HeaderList.new (fun _ => 0) [(5, ⟨7, 0⟩)] 5 = Outcome.panicked := by
    rw [HeaderList.new, hw]
  have happ : HeaderList.empty.apply [⟨0, 1, ⟨0, 0⟩⟩, ⟨5, 2, ⟨1, 0⟩⟩] = Outcome.panicked :=
    apply_panicked_of_not_chainOk (by decide)
  rw [hnew, happ]
  exact ⟨rfl, rfl, rfl, rfl⟩

/-- C3 amended: header-ingestion invariant violations abort via
`assert!`/`expect` panics rather than being returned as typed errors, and
they never leave a partially applied chain: (1) `new` panics when the walk
from the tip immediately misses its hash; (2) `apply` panics on broken
height/hash contiguity of the new entries; (3) `apply` panics when the
first entry's previous-hash check fails (wrong hash, or fork point out of
range); (4) when `apply` does return a new state, the state is the *fully*
applied one — truncation at the first new height plus the whole batch —
never a partial application. -/
theorem C3_ingestion_panics_and_atomicity :
    (∀ (f : Header → Hash) (m : List (Hash × Header)) (t : Hash),
      t ≠ 0 → lookupRemove m t = none →
        HeaderList.new f m t = Outcome.panicked) ∧
    (∀ (l : HeaderList) (es : List HeaderEntry),
      chainOk es = false → l.apply es = Outcome.panicked) ∧
    (∀ (l : HeaderList) (es : List HeaderEntry) (e : HeaderEntry),
      es.head? = some e → prevOkB l e = false → l.apply es = Outcome.panicked) ∧
    (∀ (l l' : HeaderList) (es : List HeaderEntry), l.apply es = Outcome.ok l' →
      (es = [] ∧ l' = l) ∨
        (∃ e, es.head? = some e ∧ l'.headers = l.headers.take e.height ++ es)) := by
  refine ⟨?_, ?_, ?_, ?_⟩
  · intro f m t ht hm
    have hw : walkBack m t = Outcome.panicked := by
      rw [walkBack.eq_def, if_neg ht]
      split
      next => rfl
      next hd m' heq =>
        rw [hm] at heq
        cases heq
    rw [HeaderList.new, hw]
  · intro l es hck
    exact apply_panicked_of_not_chainOk hck
  · intro l es e hhd hprev
    exact apply_panicked_of_not_prevOk hhd hprev
  · intro l l' es happ
    rcases apply_ok_cases happ with ⟨hnil, hl⟩ | ⟨e, hhd, _, _, hl⟩
    · exact Or.inl ⟨hnil, hl⟩
    · refine Or.inr ⟨e, hhd, ?_⟩
      rw [hl]
      show l.headers.take (headHeight es) ++ es = _
      rw [headHeight, hhd]
      rfl

theorem C3_ingestion_panics_and_atomicity_witness :
    HeaderList.new (fun _ => 1) [] 9 = Outcome.panicked ∧
    sampleChain.apply [⟨0, 5, ⟨0, 0⟩⟩, ⟨7, 6, ⟨5, 0⟩⟩] = Outcome.panicked ∧
    sampleChain.apply [⟨1, 5, ⟨9, 0⟩⟩] = Outcome.panicked ∧
    ((([] : List HeaderEntry) = [] ∧ sampleChain = sampleChain) ∨
      (∃ e, ([] : List HeaderEntry).head? = some e ∧
        sampleChain.headers = sampleChain.headers.take e.height ++ [])) :=
  ⟨C3_ingestion_panics_and_atomicity.1 (fun _ => 1) [] 9
      (by decide) (by decide),
   C3_ingestion_panics_and_atomicity.2.1 sampleChain _ (by decide),
   C3_ingestion_panics_and_atomicity.2.2.1 sampleChain _ ⟨1, 5, ⟨9, 0⟩⟩ rfl (by decide),
   C3_ingestion_panics_and_atomicity.2.2.2 sampleChain sampleChain [] (apply_nil _)⟩

/-! ## Lemmas about the scanner and resolver -/

theorem derive_batch_eq {ι : Type u} (d : Nat → ι) (p : Nat) :
    derive_batch d (p + 1) = (List.range' (p * DERIVE_SIZE) 99).map d := by
  rw [derive_batch]
  have h1 : p + 1 - 1 = p := rfl
  have h2 : (p + 1) * DERIVE_SIZE - 1 - p * DERIVE_SIZE = 99 := by
    simp [DERIVE_SIZE, Nat.add_mul]
  rw [h1, h2]

/-- Emptiness of one derived (address, hash) pair: both chain and mempool
stats are empty (`stats.0.is_empty() && stats.1.is_empty()`). -/
def pairEmpty {σ : Type} (statsQ : Hash → σ × σ) (isEmptyS : σ → Bool)
    (it : String × Hash) : Bool :=
  isEmptyS (statsQ it.2).1 && isEmptyS (statsQ it.2).2

/-- The AddressInfo produced for one used pair (`callback(addr, hash,
stats, ...)`). -/
def pairOut {σ α : Type} (statsQ : Hash → σ × σ)
    (cb : String → Hash → σ × σ → α) (it : String × Hash) : α :=
  cb it.1 it.2 (statsQ it.2)

/-- Per-derivation-index emptiness. -/
def idxEmpty {σ : Type} (d : Nat → String × Hash) (statsQ : Hash → σ × σ)
    (isEmptyS : σ → Bool) (i : Nat) : Bool :=
  pairEmpty statsQ isEmptyS (d i)

/-- Per-derivation-index output. -/
def idxOut {σ α : Type} (d : Nat → String × Hash) (statsQ : Hash → σ × σ)
    (cb : String → Hash → σ × σ → α) (i : Nat) : α :=
  pairOut statsQ cb (d i)

/-- Synthetic derivation oracle: index `i` becomes the pair `("", i)`. -/
def sampleDerive (i : Nat) : String × Hash := ("", i)

/-- Synthetic activity oracle marking derivation indices 0, 5 and 50 as
used (non-empty chain stats) and all others as empty. -/
def sampleStats (h : Hash) : Nat × Nat :=
  (if h = 0 ∨ h = 5 ∨ h = 50 then 1 else 0, 0)

/-- Emptiness test for the synthetic `Nat`-valued stats. -/
def sampleIsEmpty (s : Nat) : Bool := s == 0

/-- Synthetic aggregation callback returning the script hash (= the
derivation index under `sampleDerive`). -/
def sampleCallback (_a : String) (h : Hash) (_st : Nat × Nat) : Nat := h

theorem gapSpec_stop_le {ι : Type u} (emptB : ι → Bool) (c : Nat) (xs : List ι) :
    (gapSpec emptB c xs).1 ≤ xs.length := by
  induction xs generalizing c with
  | nil => simp [gapSpec]
  | cons i rest ih =>
    rw [gapSpec]
    by_cases he : emptB i = true
    · rw [if_pos he]
      by_cases hc : c + 1 ≥ 20
      · rw [if_pos hc]
        simp
      · rw [if_neg hc]
        have := ih (c + 1)
        simp
        omega
    · rw [if_neg he]
      have := ih 0
      simp
      omega

theorem gapSpec_no_hit_len {ι : Type u} (emptB : ι → Bool) (c : Nat) (xs : List ι)
    (hno : (gapSpec emptB c xs).2.2 = false) : (gapSpec emptB c xs).1 = xs.length := by
  induction xs generalizing c with
  | nil => simp [gapSpec]
  | cons i rest ih =>
    rw [gapSpec] at hno ⊢
    by_cases he : emptB i = true
    · rw [if_pos he] at hno ⊢
      by_cases hc : c + 1 ≥ 20
      · rw [if_pos hc] at hno
        simp at hno
      · rw [if_neg hc] at hno ⊢
        have := ih (c + 1) (by simpa using hno)
        simp
        omega
    · rw [if_neg he] at hno ⊢
      have := ih 0 (by simpa using hno)
      simp
      omega

theorem gapSpec_append {ι : Type u} (emptB : ι → Bool) (c : Nat) (xs ys : List ι) :
    gapSpec emptB c (xs ++ ys) =
      if (gapSpec emptB c xs).2.2 then gapSpec emptB c xs
      else (xs.length + (gapSpec emptB (gapSpec emptB c xs).2.1 ys).1,
            (gapSpec emptB (gapSpec emptB c xs).2.1 ys).2) := by
  induction xs generalizing c with
  | nil => simp [gapSpec]
  | cons i rest ih =>
    rw [List.cons_append, gapSpec, gapSpec]
    by_cases he : emptB i = true
    · rw [if_pos he, if_pos he]
      by_cases hc : c + 1 ≥ 20
      · rw [if_pos hc, if_pos hc]
        simp
      · rw [if_neg hc, if_neg hc]
        rw [ih (c + 1)]
        by_cases hhit : (gapSpec emptB (c + 1) rest).2.2 = true
        · simp [hhit]
        · simp only [Bool.not_eq_true] at hhit
          simp [hhit]
          omega
    · rw [if_neg he, if_neg he]
      rw [ih 0]
      by_cases hhit : (gapSpec emptB 0 rest).2.2 = true
      · simp [hhit]
      · simp only [Bool.not_eq_true] at hhit
        simp [hhit]
        omega

theorem gapSpec_map {ι κ : Type} (emptB : ι → Bool) (f : κ → ι) (c : Nat)
    (xs : List κ) :
    gapSpec emptB c (xs.map f) = gapSpec (fun k => emptB (f k)) c xs := by
  induction xs generalizing c with
  | nil => simp [gapSpec]
  | cons i rest ih =>
    rw [List.map_cons, gapSpec, gapSpec]
    by_cases he : emptB (f i) = true
    · rw [if_pos he, if_pos he]
      by_cases hc : c + 1 ≥ 20
      · rw [if_pos hc, if_pos hc]
      · rw [if_neg hc, if_neg hc, ih]
    · rw [if_neg he, if_neg he, ih]

theorem xpub_scan_batch_eq {σ α : Type} (statsQ : Hash → σ × σ) (isEmptyS : σ → Bool)
    (cb : String → Hash → σ × σ → α) (xs : List (String × Hash)) (c : Nat)
    (acc : List α) :
    xpub_scan_batch statsQ isEmptyS cb xs c acc =
      (acc ++ ((xs.take (gapSpec (pairEmpty statsQ isEmptyS) c xs).1).filter
          (fun it => !(pairEmpty statsQ isEmptyS it))).map (pairOut statsQ cb),
       (gapSpec (pairEmpty statsQ isEmptyS) c xs).2.1,
       (gapSpec (pairEmpty statsQ isEmptyS) c xs).2.2) := by
  induction xs generalizing c acc with
  | nil => simp [xpub_scan_batch, gapSpec]
  | cons it rest ih =>
    obtain ⟨addr, hsh⟩ := it
    rw [xpub_scan_batch, gapSpec]
    by_cases he : pairEmpty statsQ isEmptyS (addr, hsh) = true
    · have he' : (isEmptyS (statsQ hsh).1 && isEmptyS (statsQ hsh).2) = true := he
      rw [if_pos he, if_pos he']
      by_cases hc : c + 1 ≥ 20
      · rw [if_pos hc, if_pos hc]
        simp [he]
      · rw [if_neg hc, if_neg hc, ih]
        simp [he]
    · have he0 : pairEmpty statsQ isEmptyS (addr, hsh) = false := by
        simp only [Bool.not_eq_true] at he
        exact he
      have he' : (isEmptyS (statsQ hsh).1 && isEmptyS (statsQ hsh).2) = false := he0
      rw [if_neg he, if_neg (by rw [he']; exact Bool.false_ne_true), ih]
      simp [he0, pairOut]

theorem xpub_pair_stream_succ {σ : Type} (d : Nat → String × Hash) (page fuel : Nat) :
    xpub_pair_stream d page (fuel + 1) =
      derive_batch d page ++ xpub_pair_stream d (page + 1) fuel := by
  rw [xpub_pair_stream, xpub_pair_stream, List.range_succ_eq_map]
  rw [List.map_cons, List.flatten_cons, List.map_map]
  have hmap : (List.range fuel).map ((fun k => derive_batch d (page + k)) ∘ Nat.succ) =
      (List.range fuel).map (fun k => derive_batch d ((page + 1) + k)) := by
    apply List.map_congr_left
    intro k _
    show derive_batch d (page + (k + 1)) = derive_batch d ((page + 1) + k)
    have harith : page + (k + 1) = (page + 1) + k := by omega
    rw [harith]
  rw [hmap]
  rfl

theorem gapSpec_append_of_hit {ι : Type u} (emptB : ι → Bool) (c : Nat)
    (xs ys : List ι) (hdone : (gapSpec emptB c xs).2.2 = true) :
    gapSpec emptB c (xs ++ ys) = gapSpec emptB c xs := by
  rw [gapSpec_append, if_pos hdone]

theorem gapSpec_append_no_hit_fst {ι : Type u} (emptB : ι → Bool) (c : Nat)
    (xs ys : List ι) (hdone : (gapSpec emptB c xs).2.2 = false) :
    (gapSpec emptB c (xs ++ ys)).1 =
      xs.length + (gapSpec emptB (gapSpec emptB c xs).2.1 ys).1 := by
  rw [gapSpec_append, if_neg (by rw [hdone]; exact Bool.false_ne_true)]

theorem gapSpec_append_no_hit_snd {ι : Type u} (emptB : ι → Bool) (c : Nat)
    (xs ys : List ι) (hdone : (gapSpec emptB c xs).2.2 = false) :
    (gapSpec emptB c (xs ++ ys)).2 =
      (gapSpec emptB (gapSpec emptB c xs).2.1 ys).2 := by
  rw [gapSpec_append, if_neg (by rw [hdone]; exact Bool.false_ne_true)]

theorem xpub_scan_pages_eq {σ α : Type} (d : Nat → String × Hash)
    (statsQ : Hash → σ × σ) (isEmptyS : σ → Bool)
    (cb : String → Hash → σ × σ → α) :
    ∀ (fuel page c : Nat) (acc res : List α),
      xpub_scan_pages d statsQ isEmptyS cb fuel page c acc = some res →
        (gapSpec (pairEmpty statsQ isEmptyS) c (xpub_pair_stream d page fuel)).2.2 = true ∧
        res = acc ++ (((xpub_pair_stream d page fuel).take
            (gapSpec (pairEmpty statsQ isEmptyS) c (xpub_pair_stream d page fuel)).1).filter
              (fun it => !(pairEmpty statsQ isEmptyS it))).map (pairOut statsQ cb) := by
  intro fuel
  induction fuel with
  | zero =>
    intro page c acc res h
    cases h
  | succ fuel ih =>
    intro page c acc res h
    rw [xpub_scan_pages, xpub_scan_batch_eq] at h
    rw [xpub_pair_stream_succ (σ := σ)]
    by_cases hdone :
        (gapSpec (pairEmpty statsQ isEmptyS) c (derive_batch d page)).2.2 = true
    · simp only [hdone, if_true] at h
      have hres : acc ++ (((derive_batch d page).take
          (gapSpec (pairEmpty statsQ isEmptyS) c (derive_batch d page)).1).filter
            (fun it => !(pairEmpty statsQ isEmptyS it))).map (pairOut statsQ cb) = res :=
        Option.some.inj h
      rw [gapSpec_append_of_hit _ _ _ _ hdone]
      refine ⟨hdone, ?_⟩
      rw [List.take_append_of_le_length (gapSpec_stop_le _ _ _)]
      exact hres.symm
    · simp only [Bool.not_eq_true] at hdone
      simp only [hdone, Bool.false_eq_true, if_false] at h
      obtain ⟨hhit, hres⟩ := ih (page + 1)
        (gapSpec (pairEmpty statsQ isEmptyS) c (derive_batch d page)).2.1
        (acc ++ (((derive_batch d page).take
          (gapSpec (pairEmpty statsQ isEmptyS) c (derive_batch d page)).1).filter
            (fun it => !(pairEmpty statsQ isEmptyS it))).map (pairOut statsQ cb))
        res h
      have hfull : (gapSpec (pairEmpty statsQ isEmptyS) c (derive_batch d page)).1 =
          (derive_batch d page).length :=
        gapSpec_no_hit_len _ _ _ hdone
      refine ⟨?_, ?_⟩
      · rw [gapSpec_append_no_hit_snd _ _ _ _ hdone]
        exact hhit
      · rw [hres, gapSpec_append_no_hit_fst _ _ _ _ hdone]
        rw [List.take_append_eq_append_take,
          List.take_of_length_le (Nat.le_add_right _ _), Nat.add_sub_cancel_left,
          List.filter_append, List.map_append]
        rw [hfull, List.take_length, List.append_assoc]

theorem xpub_pair_stream_eq_map (d : Nat → String × Hash) (fuel : Nat) :
    xpub_pair_stream d 1 fuel = (xpub_index_stream fuel).map d := by
  rw [xpub_pair_stream, xpub_index_stream, List.map_flatten, List.map_map]
  congr 1
  apply List.map_congr_left
  intro k _
  show derive_batch d (1 + k) = (List.range' (k * DERIVE_SIZE) 99).map d
  rw [Nat.add_comm 1 k]
  exact derive_batch_eq d k

theorem xpub_index_stream_sorted (fuel : Nat) :
    List.Pairwise (· < ·) (xpub_index_stream fuel) := by
  rw [xpub_index_stream, List.pairwise_flatten]
  refine ⟨?_, ?_⟩
  · intro l hl
    obtain ⟨k, _, hk⟩ := List.mem_map.mp hl
    rw [← hk]
    exact List.pairwise_lt_range' _ _
  · rw [List.pairwise_map]
    have hr := List.pairwise_lt_range fuel
    refine hr.imp_of_mem ?_
    intro a b _ _ hab
    intro x hx y hy
    rw [List.mem_range'_1] at hx hy
    have hab' : a + 1 ≤ b := hab
    have : a * DERIVE_SIZE + 99 < b * DERIVE_SIZE := by
      have : (a + 1) * DERIVE_SIZE ≤ b * DERIVE_SIZE :=
        Nat.mul_le_mul_right _ hab'
      simp [DERIVE_SIZE, Nat.add_mul] at this ⊢
      omega
    omega

/-! ## Claim theorems: scanner and resolver -/

/-- C1 (code bug): each derivation batch covers only 99 indices.  For
page `p + 1` the code derives exactly the indices
`[(p)*100, p*100 + 99)` — the Rust half-open range `(from..to)` with
`to = page*100 - 1` drops the last index of every page, contradicting the
adjacent comment ("Page 1: 0-99") and `DERIVE_SIZE = 100`: page 1 yields
99 addresses (indices 0..=98), not 100. -/
theorem C1_derive_batch_drops_last_index :
    (∀ (ι : Type) (d : Nat → ι) (p : Nat),
      derive_batch d (p + 1) = (List.range' (p * DERIVE_SIZE) 99).map d) ∧
    (derive_batch (fun i => i) 1).length = 99 ∧
    derive_batch (fun i => i) 1 = List.range' 0 99 :=
  ⟨fun _ d p => derive_batch_eq d p, by decide, by decide⟩

/-- C4 counterexample: with the synthetic oracle marking derivation
indices {0, 5, 50} as used, the scan does *not* stop after the empties
following index 50 with 3 results.  The gap between indices 5 and 50 is 44
consecutive empties, so the counter reaches the limit of 20 at index 25
and the scan stops there, returning exactly the 2 results for indices 0
and 5; index 50 is never reached. -/
theorem C4_counterexample_stops_before_50 :
    handle_xpub_inner sampleDerive sampleStats sampleIsEmpty sampleCallback 1 =
      some [0, 5] ∧
    ([0, 5] : List Nat).length = 2 := by
  refine ⟨by decide, rfl⟩

/-- C4 amended: whenever the xpub scan terminates (returns `some`), the
20-gap stop rule fired over the flat stream of visited derivation indices
(pages from 1, each contributing its batch, with the consecutive-empty
counter threaded across page boundaries and reset to zero on every used
index — the `gapSpec` reference semantics); the returned sequence is
exactly one aggregated record per used index before the stop point, in
visit order; and the visited index stream is strictly ascending.  With the
oracle marking {0, 5, 50} used, the counter reaches 20 at index 25 (the
20 empties following index 5), so the scan returns exactly 2 results, for
indices 0 and 5. -/
theorem C4_gap_limit_scan {σ α : Type} (d : Nat → String × Hash)
    (statsQ : Hash → σ × σ) (isEmptyS : σ → Bool)
    (cb : String → Hash → σ × σ → α) (fuel : Nat) (res : List α)
    (h : handle_xpub_inner d statsQ isEmptyS cb fuel = some res) :
    (gapSpec (idxEmpty d statsQ isEmptyS) 0 (xpub_index_stream fuel)).2.2 = true ∧
    res = (((xpub_index_stream fuel).take
        (gapSpec (idxEmpty d statsQ isEmptyS) 0 (xpub_index_stream fuel)).1).filter
          (fun i => !(idxEmpty d statsQ isEmptyS i))).map (idxOut d statsQ cb) ∧
    List.Pairwise (· < ·) (xpub_index_stream fuel) := by
  obtain ⟨hhit, hres⟩ := xpub_scan_pages_eq d statsQ isEmptyS cb fuel 1 0 [] res h
  rw [xpub_pair_stream_eq_map, gapSpec_map] at hhit hres
  have hemb : (fun k => pairEmpty statsQ isEmptyS (d k)) = idxEmpty d statsQ isEmptyS :=
    rfl
  rw [hemb] at hhit hres
  refine ⟨hhit, ?_, xpub_index_stream_sorted fuel⟩
  rw [hres]
  simp only [List.nil_append]
  rw [← List.map_take, List.filter_map, List.map_map]
  rfl

theorem C4_gap_limit_scan_witness :
    (gapSpec (idxEmpty sampleDerive sampleStats sampleIsEmpty) 0
      (xpub_index_stream 1)).2.2 = true ∧
    [0, 5] = (((xpub_index_stream 1).take
        (gapSpec (idxEmpty sampleDerive sampleStats sampleIsEmpty) 0
          (xpub_index_stream 1)).1).filter
          (fun i => !(idxEmpty sampleDerive sampleStats sampleIsEmpty i))).map
        (idxOut sampleDerive sampleStats sampleCallback) ∧
    List.Pairwise (· < ·) (xpub_index_stream 1) :=
  C4_gap_limit_scan sampleDerive sampleStats sampleIsEmpty sampleCallback 1 [0, 5]
    (by decide)

/-- C7: the batch resolver silently drops each address whose script-hash
conversion fails and processes every address that converts, in input
order: `handle_multiaddr_inner` is exactly a `filterMap` over the input
addresses (order-preserving, failed entries omitted, no error surfaced).
In particular one malformed address among valid ones is excluded while the
others are all returned. -/
theorem C7_multiaddr_drop_on_error :
    (∀ (σ α : Type) (toScripthash : String → Option Hash) (statsQ : Hash → σ × σ)
      (cb : String → Hash → σ × σ → α) (addresses : List String),
      handle_multiaddr_inner toScripthash statsQ cb addresses =
        addresses.filterMap
          (fun addr => (toScripthash addr).map (fun h => cb addr h (statsQ h)))) ∧
    handle_multiaddr_inner (fun a => if a = "bad" then none else some a.length)
        (fun h => (h, h)) (fun a h _ => (a, h)) ["aa", "bad", "cccc"] =
      [("aa", 2), ("cccc", 4)] := by
  constructor
  · intro σ α toScripthash statsQ cb addresses
    induction addresses with
    | nil => rfl
    | cons a rest ih =>
      simp only [handle_multiaddr_inner, List.map_cons, List.filterMap_cons] at ih ⊢
      cases hts : toScripthash a with
      | none => simpa [hts] using ih
      | some hsh => simpa [hts] using ih
  · rfl

theorem splitSepAux_nil (acc : List Char) : splitSepAux [] acc = [acc.reverse] := by
  rw [splitSepAux.eq_def]

theorem splitSepAux_cons (c : Char) (rest acc : List Char) :
    splitSepAux (c :: rest) acc =
      if multiaddrSeparator.isPrefixOf (c :: rest)
      then acc.reverse :: splitSepAux ((c :: rest).drop multiaddrSeparator.length) []
      else splitSepAux rest (c :: acc) := by
  rw [splitSepAux.eq_def]

theorem splitSepAux_props :
    ∀ (n : Nat) (xs acc : List Char), xs.length ≤ n →
      splitSepAux xs acc ≠ [] ∧
      joinSep multiaddrSeparator (splitSepAux xs acc) = acc.reverse ++ xs := by
  intro n
  induction n with
  | zero =>
    intro xs acc hle
    have hnil : xs = [] := List.eq_nil_of_length_eq_zero (by omega)
    subst hnil
    rw [splitSepAux_nil]
    exact ⟨by simp, by simp [joinSep]⟩
  | succ n ih =>
    intro xs acc hle
    cases xs with
    | nil =>
      rw [splitSepAux_nil]
      exact ⟨by simp, by simp [joinSep]⟩
    | cons c rest =>
      rw [splitSepAux_cons]
      by_cases hpre : multiaddrSeparator.isPrefixOf (c :: rest) = true
      · rw [if_pos hpre]
        have hdlen : ((c :: rest).drop multiaddrSeparator.length).length ≤ n := by
          simp only [List.length_drop, List.length_cons, multiaddrSeparator] at *
          simp at hle ⊢
          omega
        obtain ⟨hne, hjoin⟩ := ih ((c :: rest).drop multiaddrSeparator.length) [] hdlen
        refine ⟨by simp, ?_⟩
        obtain ⟨y, L, hL⟩ : ∃ y L,
            splitSepAux ((c :: rest).drop multiaddrSeparator.length) [] = y :: L := by
          cases hsp : splitSepAux ((c :: rest).drop multiaddrSeparator.length) [] with
          | nil => exact absurd hsp hne
          | cons y L => exact ⟨y, L, rfl⟩
        rw [hL]
        rw [joinSep]
        rw [hL] at hjoin
        rw [hjoin]
        have hfix : multiaddrSeparator ++ (c :: rest).drop multiaddrSeparator.length =
            c :: rest := by
          have hp : multiaddrSeparator <+: (c :: rest) :=
            List.isPrefixOf_iff_prefix.mp hpre
          exact List.prefix_iff_eq_append.mp hp
        simp only [List.reverse_nil, List.nil_append]
        rw [List.append_assoc, hfix]
      · rw [if_neg hpre]
        have hrl : rest.length ≤ n := by
          simp at hle
          omega
        obtain ⟨hne, hjoin⟩ := ih rest (c :: acc) hrl
        refine ⟨hne, ?_⟩
        rw [hjoin]
        simp

theorem splitSep_ne_nil (xs acc : List Char) : splitSepAux xs acc ≠ [] :=
  (splitSepAux_props xs.length xs acc le_rfl).1

theorem splitSep_join (input : List Char) :
    joinSep multiaddrSeparator (splitSep input) = input := by
  have := (splitSepAux_props input.length input [] le_rfl).2
  simpa [splitSep] using this

theorem splitSepAux_len_two :
    ∀ (n : Nat) (xs acc : List Char), xs.length ≤ n → containsSep xs = true →
      2 ≤ (splitSepAux xs acc).length := by
  intro n
  induction n with
  | zero =>
    intro xs acc hle hcs
    have hnil : xs = [] := List.eq_nil_of_length_eq_zero (by omega)
    subst hnil
    simp [containsSep] at hcs
  | succ n ih =>
    intro xs acc hle hcs
    cases xs with
    | nil => simp [containsSep] at hcs
    | cons c rest =>
      rw [splitSepAux_cons]
      by_cases hpre : multiaddrSeparator.isPrefixOf (c :: rest) = true
      · rw [if_pos hpre]
        have hne := splitSep_ne_nil ((c :: rest).drop multiaddrSeparator.length) []
        have hlen : 1 ≤ (splitSepAux ((c :: rest).drop multiaddrSeparator.length) []).length := by
          cases hsp : splitSepAux ((c :: rest).drop multiaddrSeparator.length) [] with
          | nil => exact absurd hsp hne
          | cons y L => simp
        simp only [List.length_cons]
        omega
      · rw [if_neg hpre]
        rw [containsSep] at hcs
        have hcs' : containsSep rest = true := by
          rcases Bool.or_eq_true_iff.mp hcs with hl | hr
          · exact absurd hl hpre
          · exact hr
        exact ih rest (c :: acc) (by simp at hle; omega) hcs'

/-- C8: classification of a request input is total and exhaustive over
three cases.  If the input starts with the xpub marker, the result is the
empty literal list with the xpub flag set.  Otherwise, if it contains the
URL-encoded separator token, the result is the token-split list with the
flag clear — rejoining the pieces with the separator reproduces the input
verbatim (so the pieces are the substrings in their original order) and
there are at least two of them.  Otherwise the result is the one-element
list holding the whole input verbatim, flag clear. -/
theorem C8_classification_total (input : List Char) :
    (xpubMarker.isPrefixOf input = true → xpub_multi_or_single input = ([], true)) ∧
    (xpubMarker.isPrefixOf input = false → containsSep input = true →
      (xpub_multi_or_single input).2 = false ∧
      joinSep multiaddrSeparator (xpub_multi_or_single input).1 = input ∧
      2 ≤ (xpub_multi_or_single input).1.length) ∧
    (xpubMarker.isPrefixOf input = false → containsSep input = false →
      xpub_multi_or_single input = ([input], false)) := by
  refine ⟨?_, ?_, ?_⟩
  · intro hpre
    rw [xpub_multi_or_single, if_pos hpre]
  · intro hpre hcs
    rw [xpub_multi_or_single, if_neg (by rw [hpre]; exact Bool.false_ne_true), if_pos hcs]
    refine ⟨rfl, splitSep_join input, ?_⟩
    exact splitSepAux_len_two input.length input [] le_rfl hcs
  · intro hpre hcs
    rw [xpub_multi_or_single, if_neg (by rw [hpre]; exact Bool.false_ne_true),
      if_neg (by rw [hcs]; exact Bool.false_ne_true)]

theorem C8_classification_total_witness :
    xpub_multi_or_single "xpubAB".toList = ([], true) ∧
    ((xpub_multi_or_single "1A%7C1B".toList).2 = false ∧
      joinSep multiaddrSeparator (xpub_multi_or_single "1A%7C1B".toList).1 =
        "1A%7C1B".toList ∧
      2 ≤ (xpub_multi_or_single "1A%7C1B".toList).1.length) ∧
    xpub_multi_or_single "1Axx".toList = (["1Axx".toList], false) :=
  ⟨(C8_classification_total "xpubAB".toList).1 (by decide),
   (C8_classification_total "1A%7C1B".toList).2.1 (by decide) (by decide),
   (C8_classification_total "1Axx".toList).2.2 (by decide) (by decide)⟩

/-- C9 counterexample: the "utxo mode always produces a populated utxo
list" part fails.  With a query that finds no unspent outputs for the
script hash, `get_address_utxo` yields an AddressInfo whose utxo list is
empty, so *none* of the three result shapes is populated — refuting both
"always a populated utxo list" and "exactly one of the three shapes is
ever populated". -/
theorem C9_counterexample_empty_utxo_list :
    (get_address_utxo (fun _ => ([] : List Nat)) (fun u => u) "a" 7 ((0, 0) : Nat × Nat)
      : AddressInfo Nat Nat Nat).utxo = [] ∧
    utxoShapeB (get_address_utxo (fun _ => ([] : List Nat)) (fun u => u) "a" 7
      ((0, 0) : Nat × Nat) : AddressInfo Nat Nat Nat) = false ∧
    statsShapeB (get_address_utxo (fun _ => ([] : List Nat)) (fun u => u) "a" 7
      ((0, 0) : Nat × Nat) : AddressInfo Nat Nat Nat) = false ∧
    fullShapeB (get_address_utxo (fun _ => ([] : List Nat)) (fun u => u) "a" 7
      ((0, 0) : Nat × Nat) : AddressInfo Nat Nat Nat) = false := by
  refine ⟨rfl, rfl, rfl, rfl⟩

/-- C9 amended: aggregation shape invariants.  Stats mode always produces
both chain and mempool stats populated with empty transaction and utxo
fields.  Utxo mode always produces absent stats, empty transaction lists,
and a utxo field equal to the query's unspent-output list — possibly
empty.  Info mode always populates both stats and leaves the utxo field
empty.  At most one of the three result shapes is populated in any
AddressInfo (exactly one fails: a utxo-mode result over an empty utxo set
populates none). -/
theorem C9_aggregation_shapes :
    (∀ (σ τ υ : Type) (addr : String) (hsh : Hash) (st : σ × σ),
      statsShapeB (get_address_stats addr hsh st : AddressInfo σ τ υ) = true) ∧
    (∀ (σ τ υ₀ υ : Type) (q : Hash → List υ₀) (f : υ₀ → υ) (addr : String)
      (hsh : Hash) (st : σ × σ),
      (get_address_utxo q f addr hsh st : AddressInfo σ τ υ).chain_stats = none ∧
      (get_address_utxo q f addr hsh st : AddressInfo σ τ υ).mempool_stats = none ∧
      (get_address_utxo q f addr hsh st : AddressInfo σ τ υ).chain_txs = [] ∧
      (get_address_utxo q f addr hsh st : AddressInfo σ τ υ).mempool_txs = [] ∧
      (get_address_utxo q f addr hsh st : AddressInfo σ τ υ).utxo = (q hsh).map f) ∧
    (∀ (σ τ υ Tx Bid : Type) (ch : Hash → List (Tx × Bid)) (mh : Hash → List Tx)
      (pr : List (Tx × Option Bid) → List τ) (addr : String) (hsh : Hash)
      (st : σ × σ),
      (get_address_info ch mh pr addr hsh st : AddressInfo σ τ υ).chain_stats =
        some st.1 ∧
      (get_address_info ch mh pr addr hsh st : AddressInfo σ τ υ).mempool_stats =
        some st.2 ∧
      (get_address_info ch mh pr addr hsh st : AddressInfo σ τ υ).utxo = []) ∧
    (∀ (σ τ υ : Type) (r : AddressInfo σ τ υ),
      (if statsShapeB r then 1 else 0) + (if fullShapeB r then 1 else 0) +
        (if utxoShapeB r then 1 else 0) ≤ 1) := by
  refine ⟨?_, ?_, ?_, ?_⟩
  · intro σ τ υ addr hsh st
    rfl
  · intro σ τ υ₀ υ q f addr hsh st
    exact ⟨rfl, rfl, rfl, rfl, rfl⟩
  · intro σ τ υ Tx Bid ch mh pr addr hsh st
    exact ⟨rfl, rfl, rfl⟩
  · intro σ τ υ r
    rcases r with ⟨a, cs, ms, u, ct, mt⟩
    cases cs <;> cases ms <;> cases u <;> cases ct <;> cases mt <;>
      simp [statsShapeB, fullShapeB, utxoShapeB]
